import Mathlib

/-!
Verification of the soft-spi bit-banged SPI library.

The repository has two source files, `src/full_duplex.rs` and
`src/half_duplex.rs`.  Each defines a `SoftSpi` bus over abstract
digital pins and implements the `SpiBus` trait operations
(`read`, `write`, `transfer`, `transfer_in_place`, `flush`).

Shallow embedding conventions:
* A byte (`u8`) is a `Nat`; every place the Rust code can wrap
  (`<<=`, `<<`) takes an explicit `% 256`.
* Every pin drive and every input sample is recorded, in order of
  occurrence, as an event in a trace (`List Ev`).
* The environment supplies the result of each `is_high()` call on the
  input line as a stream `inp : Nat → Option Bool`, where `none`
  models the call returning `Err(_)` (so `.ok()` yields `None`) and
  `some b` models `Ok(b)`.
* The environment supplies the success/failure outcome of each
  output-pin call (`set_high` / `set_low` / `set_state`) as a stream
  `oF : Nat → Bool`.  The source discards each such `Result` with
  `.ok()` (or `let _ =`), so the embedding binds the oracle value and
  discards it, exactly mirroring that data flow.
* A Rust panic (the `assert_eq!` in the full-duplex `transfer`) is
  modelled as `Option.none`: the abort happens before the bit loop,
  so the `none` branch is taken before any event is produced.
-/

/-- A pin event: a drive of the clock line, a drive of the data-out
line (`mosi` in the full-duplex engine, the shared `sda` line in the
half-duplex engine), or a sample of the data-in line (`is_high()`
result after `.ok()`: `none` is a swallowed pin failure). -/
inductive Ev where
  | sck (b : Bool)
  | dat (b : Bool)
  | sample (r : Option Bool)
  deriving DecidableEq, Repr

/-- Driven levels of the output lines.  `sck` is the clock (driven
high at construction).  `dat` is the last level driven on the
data-out line (`mosi` resp. `sda`); `none` means the bus has not
driven it since the modelled start state. -/
structure PinState where
  sck : Bool
  dat : Option Bool
  deriving DecidableEq, Repr

/-- Effect of one event on the driven pin levels; sampling an input
drives nothing. -/
def applyEv (s : PinState) : Ev → PinState
  | Ev.sck b => { s with sck := b }
  | Ev.dat b => { s with dat := some b }
  | Ev.sample _ => s

/-- Driven pin levels after a trace of events. -/
def applyTrace (s : PinState) (t : List Ev) : PinState :=
  t.foldl applyEv s

/-- Result value of a bus operation (`Result<(), ErrorKind>` in the
source; the error payload is never constructed). -/
inductive Outcome where
  | ok
  | err
  deriving DecidableEq, Repr

/-- Output of a bus operation that owns a mutable word buffer. -/
structure BusOut where
  words : List Nat
  trace : List Ev
  res : Outcome
  deriving DecidableEq, Repr

/-- Output of a bus operation with no mutable word buffer
(`write`, `flush`). -/
structure WrOut where
  trace : List Ev
  res : Outcome
  deriving DecidableEq, Repr

/-- Embeds `(w << i) & 0x80 != 0` on `u8`: the outgoing bit for bit
index `i` (0 = most significant) of word `w`. -/
def wbit (w i : Nat) : Bool :=
  (((w <<< i) % 256) &&& 0x80) != 0

/-- Embeds `if Some(true) == pin.is_high().ok() { acc += 1 }`: the
increment contributed by one sample result. -/
def bitInc (r : Option Bool) : Nat :=
  if r = some true then 1 else 0

/-- Inner bit loop of `read` (shared text of `full_duplex.rs` lines
29-40 and `half_duplex.rs` lines 46-57): for each bit, clock low then
high (both results `.ok()`-discarded), shift the accumulator left
(wrapping `u8` shift), sample the input line and add 1 when the
sample is `Some(true)`.  Arguments: remaining bit count, next sample
index `k`, next output-oracle index `j`, accumulator `a`. -/
def readBits (inp : Nat → Option Bool) (oF : Nat → Bool) :
    Nat → Nat → Nat → Nat → Nat × List Ev
  | 0, _, _, a => (a, [])
  | n + 1, k, j, a =>
    let _ := oF j
    let _ := oF (j + 1)
    let r := inp k
    let a1 := (a * 2) % 256 + bitInc r
    let rest := readBits inp oF n (k + 1) (j + 2) a1
    (rest.1, Ev.sck false :: Ev.sck true :: Ev.sample r :: rest.2)

/-- Outer word loop of `read`: 8 bits per word, words in buffer
order. -/
def readWords (inp : Nat → Option Bool) (oF : Nat → Bool) :
    List Nat → Nat → Nat → List Nat × List Ev
  | [], _, _ => ([], [])
  | w :: ws, k, j =>
    let b := readBits inp oF 8 k j w
    let rest := readWords inp oF ws (k + 8) (j + 16)
    (b.1 :: rest.1, b.2 ++ rest.2)

/-- `SpiBus::read` of `full_duplex.rs` (lines 28-42). -/
def fdRead (inp : Nat → Option Bool) (oF : Nat → Bool)
    (words : List Nat) : BusOut :=
  let p := readWords inp oF words 0 0
  ⟨p.1, p.2, Outcome.ok⟩

/-- `SpiBus::read` of `half_duplex.rs` (lines 44-59): first drives
the shared data line high (`self.sda.set_high().ok()`, consuming
output-oracle index 0), then runs the identical loop. -/
def hdRead (inp : Nat → Option Bool) (oF : Nat → Bool)
    (words : List Nat) : BusOut :=
  let _ := oF 0
  let p := readWords inp oF words 0 1
  ⟨p.1, Ev.dat true :: p.2, Outcome.ok⟩

/-- Inner bit loop of `write` (shared text of `full_duplex.rs` lines
49-57 and `half_duplex.rs` lines 65-76): for bit index `i`, compute
`(w << i) & 0x80`, drive the data-out line to that bit, then clock
low and high.  All three pin results are `.ok()`-discarded. -/
def writeBits (oF : Nat → Bool) (w : Nat) :
    Nat → Nat → Nat → List Ev
  | 0, _, _ => []
  | n + 1, i, j =>
    let b := wbit w i
    let _ := oF j
    let _ := oF (j + 1)
    let _ := oF (j + 2)
    Ev.dat b :: Ev.sck false :: Ev.sck true :: writeBits oF w n (i + 1) (j + 3)

/-- Outer word loop of `write`. -/
def writeWords (oF : Nat → Bool) : List Nat → Nat → List Ev
  | [], _ => []
  | w :: ws, j => writeBits oF w 8 0 j ++ writeWords oF ws (j + 24)

/-- `SpiBus::write` of `full_duplex.rs` (lines 48-59). -/
def fdWrite (oF : Nat → Bool) (words : List Nat) : WrOut :=
  ⟨writeWords oF words 0, Outcome.ok⟩

/-- `SpiBus::write` of `half_duplex.rs` (lines 61-77); its loop body
is textually identical to the full-duplex one, driving the shared
data line instead of `mosi`. -/
def hdWrite (oF : Nat → Bool) (words : List Nat) : WrOut :=
  ⟨writeWords oF words 0, Outcome.ok⟩

/-- Inner bit loop of the full-duplex `transfer` (lines 79-93): drive
the data-out bit of the write word, clock low then high, then shift
the read word left and add the sampled bit.  Arguments: remaining bit
count, bit index `i`, sample index `k`, output-oracle index `j`,
read-word accumulator `a`. -/
def xferBits (inp : Nat → Option Bool) (oF : Nat → Bool) (w : Nat) :
    Nat → Nat → Nat → Nat → Nat → Nat × List Ev
  | 0, _, _, _, a => (a, [])
  | n + 1, i, k, j, a =>
    let b := wbit w i
    let _ := oF j
    let _ := oF (j + 1)
    let _ := oF (j + 2)
    let r := inp k
    let a1 := (a * 2) % 256 + bitInc r
    let rest := xferBits inp oF w n (i + 1) (k + 1) (j + 3) a1
    (rest.1, Ev.dat b :: Ev.sck false :: Ev.sck true :: Ev.sample r :: rest.2)

/-- Outer word loop of the full-duplex `transfer`: index `bytes` runs
over `0..read.len()`, pairing `read[bytes]` with `write[bytes]`.  The
mismatched-shape fallback is unreachable because `transfer` only
calls this after the equal-length assertion. -/
def xferWords (inp : Nat → Option Bool) (oF : Nat → Bool) :
    List Nat → List Nat → Nat → Nat → List Nat × List Ev
  | rv :: rs, wv :: wsv, k, j =>
    let b := xferBits inp oF wv 8 0 k j rv
    let rest := xferWords inp oF rs wsv (k + 8) (j + 24)
    (b.1 :: rest.1, b.2 ++ rest.2)
  | _, _, _, _ => ([], [])

/-- `SpiBus::transfer` of `full_duplex.rs` (lines 72-95).  The
`assert_eq!(read.len(), write.len())` precedes the loop; a length
mismatch panics before any pin operation, modelled as `none`. -/
def fdTransfer (inp : Nat → Option Bool) (oF : Nat → Bool)
    (rb wb : List Nat) : Option BusOut :=
  if rb.length = wb.length then
    let p := xferWords inp oF rb wb 0 0
    some ⟨p.1, p.2, Outcome.ok⟩
  else
    none

/-- Inner bit loop of the full-duplex `transfer_in_place` (lines
105-120): per bit it drives the data-out line high, then drives it to
the outgoing bit of the word's original value, clocks low then high,
and shift-accumulates the sample into `read_byte`. -/
def tipBits (inp : Nat → Option Bool) (oF : Nat → Bool) (w : Nat) :
    Nat → Nat → Nat → Nat → Nat → Nat × List Ev
  | 0, _, _, _, a => (a, [])
  | n + 1, i, k, j, a =>
    let b := wbit w i
    let _ := oF j
    let _ := oF (j + 1)
    let _ := oF (j + 2)
    let _ := oF (j + 3)
    let r := inp k
    let a1 := (a * 2) % 256 + bitInc r
    let rest := tipBits inp oF w n (i + 1) (k + 1) (j + 4) a1
    (rest.1, Ev.dat true :: Ev.dat b :: Ev.sck false :: Ev.sck true ::
      Ev.sample r :: rest.2)

/-- Outer word loop of `transfer_in_place`: `read_byte` starts at 0
for each word and overwrites the word only after its 8 bits are
done. -/
def tipWords (inp : Nat → Option Bool) (oF : Nat → Bool) :
    List Nat → Nat → Nat → List Nat × List Ev
  | [], _, _ => ([], [])
  | w :: ws, k, j =>
    let b := tipBits inp oF w 8 0 k j 0
    let rest := tipWords inp oF ws (k + 8) (j + 32)
    (b.1 :: rest.1, b.2 ++ rest.2)

/-- `SpiBus::transfer_in_place` of `full_duplex.rs` (lines 103-124). -/
def fdTransferInPlace (inp : Nat → Option Bool) (oF : Nat → Bool)
    (words : List Nat) : BusOut :=
  let p := tipWords inp oF words 0 0
  ⟨p.1, p.2, Outcome.ok⟩

/-- `SpiBus::flush` of `full_duplex.rs` (lines 129-131): `Ok(())`. -/
def fdFlush : WrOut := ⟨[], Outcome.ok⟩

/-- `SpiBus::transfer` of `half_duplex.rs` (lines 90-92): ignores
both buffers and returns `Ok(())`. -/
def hdTransfer (rb : List Nat) (_wb : List Nat) : BusOut :=
  ⟨rb, [], Outcome.ok⟩

/-- `SpiBus::transfer_in_place` of `half_duplex.rs` (lines 100-102):
ignores the buffer and returns `Ok(())`. -/
def hdTransferInPlace (ws : List Nat) : BusOut :=
  ⟨ws, [], Outcome.ok⟩

/-- `SpiBus::flush` of `half_duplex.rs` (lines 107-109). -/
def hdFlush : WrOut := ⟨[], Outcome.ok⟩

/-- `SoftSpi::new` of `full_duplex.rs` (lines 10-14): drives the
clock high (`let _ = this.sck.set_high();`), touching no other
line. -/
def fdNew (s : PinState) : PinState := { s with sck := true }

/-- `SoftSpi::new` of `half_duplex.rs` (lines 18-22): drives the
clock high, touching the shared data line not at all. -/
def hdNew (s : PinState) : PinState := { s with sck := true }

/-!
Specification-side functions.  These are written from the spec's
prose ("shift the accumulating byte left by one and set its low bit
if the sampled level is high", MSB-first weighting, one low-then-high
clock pulse per bit with the sample after the rising edge) and are
what the claim theorems compare the code against.
-/

/-- MSB-first value of `n` successive samples starting at index `k`:
the first sample carries weight `2 ^ (n - 1)`, a failed sample counts
as a 0 bit. -/
def bitsVal (inp : Nat → Option Bool) : Nat → Nat → Nat
  | 0, _ => 0
  | n + 1, k => bitInc (inp k) * 2 ^ n + bitsVal inp n (k + 1)

/-- Expected event shape of `n` read bits starting at sample `k`:
per bit, clock set low, clock set high, then the sample. -/
def sampleTrace (inp : Nat → Option Bool) : Nat → Nat → List Ev
  | 0, _ => []
  | n + 1, k =>
    Ev.sck false :: Ev.sck true :: Ev.sample (inp k) ::
      sampleTrace inp n (k + 1)

/-- Expected event shape of `n` written bits of word `w` starting at
bit index `i`: per bit, data-out driven to the bit, then a
low-then-high clock pulse. -/
def wTrace (w : Nat) : Nat → Nat → List Ev
  | 0, _ => []
  | n + 1, i =>
    Ev.dat (wbit w i) :: Ev.sck false :: Ev.sck true :: wTrace w n (i + 1)

/-- Expected event shape of writing a whole buffer, word by word. -/
def wWordsTrace : List Nat → List Ev
  | [] => []
  | w :: ws => wTrace w 8 0 ++ wWordsTrace ws

/-- Expected event shape of `n` transferred bits of outgoing word `w`
starting at bit index `i` and sample index `k`: data-out driven to
the bit, clock low then high, then the sample. -/
def xTrace (inp : Nat → Option Bool) (w : Nat) : Nat → Nat → Nat → List Ev
  | 0, _, _ => []
  | n + 1, i, k =>
    Ev.dat (wbit w i) :: Ev.sck false :: Ev.sck true :: Ev.sample (inp k) ::
      xTrace inp w n (i + 1) (k + 1)

/-- Expected event shape of a whole `transfer`, driven by the write
buffer, with samples numbered from `k`. -/
def xWordsTrace (inp : Nat → Option Bool) : List Nat → Nat → List Ev
  | [], _ => []
  | w :: ws, k => xTrace inp w 8 0 k ++ xWordsTrace inp ws (k + 8)

/-- Expected event shape of `n` `transfer_in_place` bits: as in
`xTrace` but with an additional data-out set-high immediately before
each per-bit data-out drive (the extra `self.mosi.set_high()` in the
source). -/
def tTrace (inp : Nat → Option Bool) (w : Nat) : Nat → Nat → Nat → List Ev
  | 0, _, _ => []
  | n + 1, i, k =>
    Ev.dat true :: Ev.dat (wbit w i) :: Ev.sck false :: Ev.sck true ::
      Ev.sample (inp k) :: tTrace inp w n (i + 1) (k + 1)

/-- Expected event shape of a whole `transfer_in_place`. -/
def tWordsTrace (inp : Nat → Option Bool) : List Nat → Nat → List Ev
  | [], _ => []
  | w :: ws, k => tTrace inp w 8 0 k ++ tWordsTrace inp ws (k + 8)

/-- Inserts a data-out set-high immediately before every data-out
drive of a trace: the precise relation between the pin protocol of
`transfer` and that of `transfer_in_place`. -/
def addGlitch : List Ev → List Ev
  | [] => []
  | Ev.dat b :: t => Ev.dat true :: Ev.dat b :: addGlitch t
  | e :: t => e :: addGlitch t

/-- Holds when every clock set-low in the trace is immediately
followed by a clock set-high: clock excursions are exactly
low-then-high pulses. -/
def wellClocked : List Ev → Bool
  | [] => true
  | Ev.sck true :: t => wellClocked t
  | Ev.sck false :: Ev.sck true :: t => wellClocked t
  | Ev.sck false :: _ => false
  | Ev.dat _ :: t => wellClocked t
  | Ev.sample _ :: t => wellClocked t

/-- Clock discipline of one operation trace: well-formed pulses, and
the clock line is left high whenever it was high on entry. -/
def sckOk (t : List Ev) : Prop :=
  wellClocked t = true ∧
    ∀ s : PinState, s.sck = true → (applyTrace s t).sck = true

/-- Replaces every failed input sample by a successful low-level
sample; the spec says a failed `is_high()` is treated as "not
high". -/
def normIn (inp : Nat → Option Bool) : Nat → Option Bool :=
  fun n => some ((inp n).getD false)

/-- Levels driven on the clock line, in order. -/
def sckLevels (t : List Ev) : List Bool :=
  t.filterMap fun e =>
    match e with
    | Ev.sck b => some b
    | _ => none

/-- Levels driven on the data-out line, in order. -/
def datLevels (t : List Ev) : List Bool :=
  t.filterMap fun e =>
    match e with
    | Ev.dat b => some b
    | _ => none

/-- Concrete input stream: low for the first 8 samples, then high;
over 16 samples this presents `0x00` then `0xFF`. -/
def inpLoHi : Nat → Option Bool := fun n => some (decide (8 ≤ n))

/-- Concrete input stream that always reads low. -/
def inpF : Nat → Option Bool := fun _ => some false

/-- Concrete output-pin outcome stream: every drive succeeds. -/
def oFc : Nat → Bool := fun _ => true

/-! Basic reduction lemmas. -/

theorem applyTrace_nil (s : PinState) : applyTrace s [] = s := rfl

theorem applyTrace_cons (s : PinState) (e : Ev) (t : List Ev) :
    applyTrace s (e :: t) = applyTrace (applyEv s e) t := rfl

theorem applyTrace_append (s : PinState) (t1 t2 : List Ev) :
    applyTrace s (t1 ++ t2) = applyTrace (applyTrace s t1) t2 :=
  List.foldl_append _ _ _ _

theorem bitInc_le (r : Option Bool) : bitInc r ≤ 1 := by
  unfold bitInc; split <;> omega

theorem shiftStep (a b : Nat) (hb : b ≤ 1) :
    (a * 2) % 256 + b = (a * 2 + b) % 256 := by
  omega

theorem bitsVal_lt (inp : Nat → Option Bool) :
    ∀ n k, bitsVal inp n k < 2 ^ n := by
  intro n
  induction n with
  | zero => intro k; simp [bitsVal]
  | succ n ih =>
    intro k
    have h1 : bitInc (inp k) * 2 ^ n ≤ 1 * 2 ^ n :=
      Nat.mul_le_mul_right _ (bitInc_le (inp k))
    have h2 := ih (k + 1)
    have h3 : 2 ^ (n + 1) = 2 ^ n + 2 ^ n := by ring
    simp only [bitsVal]
    omega

/-- Characterization of the `read` bit loop on a positive bit count:
the accumulator becomes the old value shifted out (mod 256) plus the
MSB-first sample value, and the trace is the per-bit
pulse-pulse-sample shape. -/
theorem readBits_eq (inp : Nat → Option Bool) (oF : Nat → Bool) :
    ∀ n k j a, readBits inp oF (n + 1) k j a =
      ((a * 2 ^ (n + 1) + bitsVal inp (n + 1) k) % 256,
        sampleTrace inp (n + 1) k) := by
  intro n
  induction n with
  | zero =>
    intro k j a
    simp only [readBits, bitsVal, sampleTrace, Prod.mk.injEq]
    have hb := bitInc_le (inp k)
    constructor
    · rw [shiftStep _ _ hb]
      congr 1
      ring
    · trivial
  | succ n ih =>
    intro k j a
    have hstep :
        readBits inp oF (n + 1 + 1) k j a =
          (readBits inp oF (n + 1) (k + 1) (j + 2)
            ((a * 2) % 256 + bitInc (inp k))).map id
            (fun t => Ev.sck false :: Ev.sck true :: Ev.sample (inp k) :: t) := by
      simp [readBits, Prod.map]
    rw [hstep, ih (k + 1) (j + 2) ((a * 2) % 256 + bitInc (inp k))]
    simp only [Prod.map, id, Prod.mk.injEq]
    constructor
    · have hmod :
          (((a * 2) % 256 + bitInc (inp k)) * 2 ^ (n + 1) +
              bitsVal inp (n + 1) (k + 1)) % 256 =
            ((a * 2 + bitInc (inp k)) * 2 ^ (n + 1) +
              bitsVal inp (n + 1) (k + 1)) % 256 :=
        (((Nat.mod_modEq (a * 2) 256).add_right _).mul_right _).add_right _
      rw [hmod]
      congr 1
      simp only [bitsVal]
      ring
    · simp [sampleTrace]

/-- The 8-bit instance used by the word loops. -/
theorem readBits8 (inp : Nat → Option Bool) (oF : Nat → Bool)
    (k j a : Nat) :
    readBits inp oF 8 k j a =
      ((a * 256 + bitsVal inp 8 k) % 256, sampleTrace inp 8 k) := by
  have h := readBits_eq inp oF 7 k j a
  norm_num at h
  exact h

/-- Characterization of the `transfer` bit loop: same accumulator
arithmetic as `read`, with the outgoing-bit drive added to the
trace. -/
theorem xferBits_eq (inp : Nat → Option Bool) (oF : Nat → Bool) (w : Nat) :
    ∀ n i k j a, xferBits inp oF w (n + 1) i k j a =
      ((a * 2 ^ (n + 1) + bitsVal inp (n + 1) k) % 256,
        xTrace inp w (n + 1) i k) := by
  intro n
  induction n with
  | zero =>
    intro i k j a
    simp only [xferBits, bitsVal, xTrace, Prod.mk.injEq]
    have hb := bitInc_le (inp k)
    constructor
    · rw [shiftStep _ _ hb]
      congr 1
      ring
    · trivial
  | succ n ih =>
    intro i k j a
    have hstep :
        xferBits inp oF w (n + 1 + 1) i k j a =
          (xferBits inp oF w (n + 1) (i + 1) (k + 1) (j + 3)
            ((a * 2) % 256 + bitInc (inp k))).map id
            (fun t => Ev.dat (wbit w i) :: Ev.sck false :: Ev.sck true ::
              Ev.sample (inp k) :: t) := by
      simp [xferBits, Prod.map]
    rw [hstep, ih (i + 1) (k + 1) (j + 3) ((a * 2) % 256 + bitInc (inp k))]
    simp only [Prod.map, id, Prod.mk.injEq]
    constructor
    · have hmod :
          (((a * 2) % 256 + bitInc (inp k)) * 2 ^ (n + 1) +
              bitsVal inp (n + 1) (k + 1)) % 256 =
            ((a * 2 + bitInc (inp k)) * 2 ^ (n + 1) +
              bitsVal inp (n + 1) (k + 1)) % 256 :=
        (((Nat.mod_modEq (a * 2) 256).add_right _).mul_right _).add_right _
      rw [hmod]
      congr 1
      simp only [bitsVal]
      ring
    · simp [xTrace]

/-- Characterization of the `transfer_in_place` bit loop: same
accumulator arithmetic, with the extra data-out set-high in the
trace. -/
theorem tipBits_eq (inp : Nat → Option Bool) (oF : Nat → Bool) (w : Nat) :
    ∀ n i k j a, tipBits inp oF w (n + 1) i k j a =
      ((a * 2 ^ (n + 1) + bitsVal inp (n + 1) k) % 256,
        tTrace inp w (n + 1) i k) := by
  intro n
  induction n with
  | zero =>
    intro i k j a
    simp only [tipBits, bitsVal, tTrace, Prod.mk.injEq]
    have hb := bitInc_le (inp k)
    constructor
    · rw [shiftStep _ _ hb]
      congr 1
      ring
    · trivial
  | succ n ih =>
    intro i k j a
    have hstep :
        tipBits inp oF w (n + 1 + 1) i k j a =
          (tipBits inp oF w (n + 1) (i + 1) (k + 1) (j + 4)
            ((a * 2) % 256 + bitInc (inp k))).map id
            (fun t => Ev.dat true :: Ev.dat (wbit w i) :: Ev.sck false ::
              Ev.sck true :: Ev.sample (inp k) :: t) := by
      simp [tipBits, Prod.map]
    rw [hstep, ih (i + 1) (k + 1) (j + 4) ((a * 2) % 256 + bitInc (inp k))]
    simp only [Prod.map, id, Prod.mk.injEq]
    constructor
    · have hmod :
          (((a * 2) % 256 + bitInc (inp k)) * 2 ^ (n + 1) +
              bitsVal inp (n + 1) (k + 1)) % 256 =
            ((a * 2 + bitInc (inp k)) * 2 ^ (n + 1) +
              bitsVal inp (n + 1) (k + 1)) % 256 :=
        (((Nat.mod_modEq (a * 2) 256).add_right _).mul_right _).add_right _
      rw [hmod]
      congr 1
      simp only [bitsVal]
      ring
    · simp [tTrace]

theorem xferBits8 (inp : Nat → Option Bool) (oF : Nat → Bool)
    (w i k j a : Nat) :
    xferBits inp oF w 8 i k j a =
      ((a * 256 + bitsVal inp 8 k) % 256, xTrace inp w 8 i k) := by
  have h := xferBits_eq inp oF w 7 i k j a
  norm_num at h
  exact h

theorem tipBits8 (inp : Nat → Option Bool) (oF : Nat → Bool)
    (w i k j a : Nat) :
    tipBits inp oF w 8 i k j a =
      ((a * 256 + bitsVal inp 8 k) % 256, tTrace inp w 8 i k) := by
  have h := tipBits_eq inp oF w 7 i k j a
  norm_num at h
  exact h

/-- The `write` bit loop produces exactly the expected drive-pulse
shape, independently of the output-pin outcomes. -/
theorem writeBits_eq (oF : Nat → Bool) (w : Nat) :
    ∀ n i j, writeBits oF w n i j = wTrace w n i := by
  intro n
  induction n with
  | zero => intro i j; rfl
  | succ n ih => intro i j; simp [writeBits, wTrace, ih]

theorem sampleTrace_add (inp : Nat → Option Bool) :
    ∀ m n k, sampleTrace inp (m + n) k =
      sampleTrace inp m k ++ sampleTrace inp n (k + m) := by
  intro m
  induction m with
  | zero => intro n k; simp [sampleTrace]
  | succ m ih =>
    intro n k
    rw [Nat.add_right_comm m 1 n]
    simp only [sampleTrace, List.cons_append]
    rw [ih n (k + 1)]
    have : k + 1 + m = k + (m + 1) := by omega
    rw [this]


/-- The `read` word loop: each produced word is the MSB-first value
of its 8 samples — independent of the buffer's prior contents and of
the output-pin outcomes — and the trace is one pulse-pulse-sample
group per bit. -/
theorem readWords_eq (inp : Nat → Option Bool) (oF : Nat → Bool) :
    ∀ (ws : List Nat) (k j : Nat),
      readWords inp oF ws k j =
        ((List.range ws.length).map (fun i => bitsVal inp 8 (k + 8 * i)),
          sampleTrace inp (8 * ws.length) k) := by
  intro ws
  induction ws with
  | nil => intro k j; simp [readWords, sampleTrace]
  | cons w ws ih =>
    intro k j
    have hlt : bitsVal inp 8 k < 256 := by
      have h := bitsVal_lt inp 8 k
      norm_num at h
      exact h
    have hw : (w * 256 + bitsVal inp 8 k) % 256 = bitsVal inp 8 k := by
      omega
    have hf : ((fun i => bitsVal inp 8 (k + 8 * i)) ∘ Nat.succ) =
        fun i => bitsVal inp 8 (k + 8 + 8 * i) := by
      funext i
      simp only [Function.comp]
      congr 1
      omega
    simp only [readWords, readBits8, hw, ih, List.length_cons, Prod.mk.injEq]
    constructor
    · rw [List.range_succ_eq_map, List.map_cons, List.map_map, hf]
      simp
    · rw [show 8 * (ws.length + 1) = 8 + 8 * ws.length by ring,
        sampleTrace_add inp 8 (8 * ws.length) k]

/-- The `write` word loop produces exactly the expected trace. -/
theorem writeWords_eq (oF : Nat → Bool) :
    ∀ (ws : List Nat) (j : Nat), writeWords oF ws j = wWordsTrace ws := by
  intro ws
  induction ws with
  | nil => intro j; rfl
  | cons w ws ih =>
    intro j
    simp [writeWords, wWordsTrace, writeBits_eq, ih]

/-- The `transfer` word loop on equal-length buffers: read words
become the MSB-first sample values, and the trace is driven by the
write buffer. -/
theorem xferWords_eq (inp : Nat → Option Bool) (oF : Nat → Bool) :
    ∀ (rb wb : List Nat) (k j : Nat), rb.length = wb.length →
      xferWords inp oF rb wb k j =
        ((List.range rb.length).map (fun i => bitsVal inp 8 (k + 8 * i)),
          xWordsTrace inp wb k) := by
  intro rb
  induction rb with
  | nil =>
    intro wb k j h
    cases wb with
    | nil => simp [xferWords, xWordsTrace]
    | cons wv wsv => simp at h
  | cons rv rs ih =>
    intro wb k j h
    cases wb with
    | nil => simp at h
    | cons wv wsv =>
      have hlen : rs.length = wsv.length := by
        simpa using h
      have hlt : bitsVal inp 8 k < 256 := by
        have h2 := bitsVal_lt inp 8 k
        norm_num at h2
        exact h2
      have hw : (rv * 256 + bitsVal inp 8 k) % 256 = bitsVal inp 8 k := by
        omega
      have hf : ((fun i => bitsVal inp 8 (k + 8 * i)) ∘ Nat.succ) =
          fun i => bitsVal inp 8 (k + 8 + 8 * i) := by
        funext i
        simp only [Function.comp]
        congr 1
        omega
      simp only [xferWords, xferBits8, hw, ih wsv (k + 8) (j + 24) hlen,
        List.length_cons, xWordsTrace, Prod.mk.injEq]
      constructor
      · rw [List.range_succ_eq_map, List.map_cons, List.map_map, hf]
        simp
      · simp

/-- The `transfer_in_place` word loop: each word is replaced by the
MSB-first value of its 8 samples (`read_byte` starts at 0), and the
trace is the glitched per-bit shape. -/
theorem tipWords_eq (inp : Nat → Option Bool) (oF : Nat → Bool) :
    ∀ (ws : List Nat) (k j : Nat),
      tipWords inp oF ws k j =
        ((List.range ws.length).map (fun i => bitsVal inp 8 (k + 8 * i)),
          tWordsTrace inp ws k) := by
  intro ws
  induction ws with
  | nil => intro k j; simp [tipWords, tWordsTrace]
  | cons w ws ih =>
    intro k j
    have hlt : bitsVal inp 8 k < 256 := by
      have h := bitsVal_lt inp 8 k
      norm_num at h
      exact h
    have hw : (0 * 256 + bitsVal inp 8 k) % 256 = bitsVal inp 8 k := by
      omega
    have hf : ((fun i => bitsVal inp 8 (k + 8 * i)) ∘ Nat.succ) =
        fun i => bitsVal inp 8 (k + 8 + 8 * i) := by
      funext i
      simp only [Function.comp]
      congr 1
      omega
    simp only [tipWords, tipBits8, hw, ih, List.length_cons,
      tWordsTrace, Prod.mk.injEq]
    constructor
    · rw [List.range_succ_eq_map, List.map_cons, List.map_map, hf]
      simp
    · simp

/-! Relation between the `transfer` and `transfer_in_place` traces. -/

theorem addGlitch_nil : addGlitch [] = [] := rfl

theorem addGlitch_dat (b : Bool) (t : List Ev) :
    addGlitch (Ev.dat b :: t) = Ev.dat true :: Ev.dat b :: addGlitch t := rfl

theorem addGlitch_sck (b : Bool) (t : List Ev) :
    addGlitch (Ev.sck b :: t) = Ev.sck b :: addGlitch t := rfl

theorem addGlitch_sample (r : Option Bool) (t : List Ev) :
    addGlitch (Ev.sample r :: t) = Ev.sample r :: addGlitch t := rfl

theorem addGlitch_append :
    ∀ t1 t2 : List Ev, addGlitch (t1 ++ t2) = addGlitch t1 ++ addGlitch t2 := by
  intro t1
  induction t1 with
  | nil => intro t2; rfl
  | cons e t ih =>
    intro t2
    cases e with
    | sck b => simp [addGlitch_sck, ih]
    | dat b => simp [addGlitch_dat, ih]
    | sample r => simp [addGlitch_sample, ih]

theorem tTrace_eq_addGlitch (inp : Nat → Option Bool) (w : Nat) :
    ∀ n i k, tTrace inp w n i k = addGlitch (xTrace inp w n i k) := by
  intro n
  induction n with
  | zero => intro i k; rfl
  | succ n ih =>
    intro i k
    simp only [tTrace, xTrace, addGlitch_dat, addGlitch_sck,
      addGlitch_sample, ih]

theorem tWordsTrace_eq_addGlitch (inp : Nat → Option Bool) :
    ∀ (ws : List Nat) (k : Nat),
      tWordsTrace inp ws k = addGlitch (xWordsTrace inp ws k) := by
  intro ws
  induction ws with
  | nil => intro k; rfl
  | cons w ws ih =>
    intro k
    simp only [tWordsTrace, xWordsTrace, addGlitch_append,
      tTrace_eq_addGlitch, ih]

/-! Clock-pulse discipline of the traces. -/

theorem wc_nil : wellClocked [] = true := rfl

theorem wc_sckT (t : List Ev) :
    wellClocked (Ev.sck true :: t) = wellClocked t := rfl

theorem wc_pulse (t : List Ev) :
    wellClocked (Ev.sck false :: Ev.sck true :: t) = wellClocked t := rfl

theorem wc_dat (b : Bool) (t : List Ev) :
    wellClocked (Ev.dat b :: t) = wellClocked t := rfl

theorem wc_sample (r : Option Bool) (t : List Ev) :
    wellClocked (Ev.sample r :: t) = wellClocked t := rfl

theorem wc_sampleTrace (inp : Nat → Option Bool) :
    ∀ (n k : Nat) (t : List Ev),
      wellClocked (sampleTrace inp n k ++ t) = wellClocked t := by
  intro n
  induction n with
  | zero => intro k t; rfl
  | succ n ih =>
    intro k t
    simp only [sampleTrace, List.cons_append, wc_pulse, wc_sample, ih]

theorem wc_wTrace (w : Nat) :
    ∀ (n i : Nat) (t : List Ev),
      wellClocked (wTrace w n i ++ t) = wellClocked t := by
  intro n
  induction n with
  | zero => intro i t; rfl
  | succ n ih =>
    intro i t
    simp only [wTrace, List.cons_append, wc_dat, wc_pulse, ih]

theorem wc_xTrace (inp : Nat → Option Bool) (w : Nat) :
    ∀ (n i k : Nat) (t : List Ev),
      wellClocked (xTrace inp w n i k ++ t) = wellClocked t := by
  intro n
  induction n with
  | zero => intro i k t; rfl
  | succ n ih =>
    intro i k t
    simp only [xTrace, List.cons_append, wc_dat, wc_pulse, wc_sample, ih]

theorem wc_tTrace (inp : Nat → Option Bool) (w : Nat) :
    ∀ (n i k : Nat) (t : List Ev),
      wellClocked (tTrace inp w n i k ++ t) = wellClocked t := by
  intro n
  induction n with
  | zero => intro i k t; rfl
  | succ n ih =>
    intro i k t
    simp only [tTrace, List.cons_append, wc_dat, wc_pulse, wc_sample, ih]

theorem wc_wWordsTrace :
    ∀ (ws : List Nat) (t : List Ev),
      wellClocked (wWordsTrace ws ++ t) = wellClocked t := by
  intro ws
  induction ws with
  | nil => intro t; rfl
  | cons w ws ih =>
    intro t
    simp only [wWordsTrace, List.append_assoc, wc_wTrace, ih]

theorem wc_xWordsTrace (inp : Nat → Option Bool) :
    ∀ (ws : List Nat) (k : Nat) (t : List Ev),
      wellClocked (xWordsTrace inp ws k ++ t) = wellClocked t := by
  intro ws
  induction ws with
  | nil => intro k t; rfl
  | cons w ws ih =>
    intro k t
    simp only [xWordsTrace, List.append_assoc, wc_xTrace, ih]

theorem wc_tWordsTrace (inp : Nat → Option Bool) :
    ∀ (ws : List Nat) (k : Nat) (t : List Ev),
      wellClocked (tWordsTrace inp ws k ++ t) = wellClocked t := by
  intro ws
  induction ws with
  | nil => intro k t; rfl
  | cons w ws ih =>
    intro k t
    simp only [tWordsTrace, List.append_assoc, wc_tTrace, ih]

/-! Effect of the traces on the driven pin state. -/

theorem apply_sampleTrace_sck (inp : Nat → Option Bool) :
    ∀ (n k : Nat) (s : PinState), s.sck = true →
      (applyTrace s (sampleTrace inp n k)).sck = true := by
  intro n
  induction n with
  | zero => intro k s hs; simpa [sampleTrace, applyTrace] using hs
  | succ n ih =>
    intro k s hs
    simp only [sampleTrace, applyTrace_cons, applyEv]
    exact ih (k + 1) _ rfl

theorem apply_sampleTrace_dat (inp : Nat → Option Bool) :
    ∀ (n k : Nat) (s : PinState),
      (applyTrace s (sampleTrace inp n k)).dat = s.dat := by
  intro n
  induction n with
  | zero => intro k s; rfl
  | succ n ih =>
    intro k s
    simp only [sampleTrace, applyTrace_cons, applyEv]
    rw [ih (k + 1)]

theorem apply_wTrace_sck (w : Nat) :
    ∀ (n i : Nat) (s : PinState), s.sck = true →
      (applyTrace s (wTrace w n i)).sck = true := by
  intro n
  induction n with
  | zero => intro i s hs; simpa [wTrace, applyTrace] using hs
  | succ n ih =>
    intro i s hs
    simp only [wTrace, applyTrace_cons, applyEv]
    exact ih (i + 1) _ rfl

theorem apply_xTrace_sck (inp : Nat → Option Bool) (w : Nat) :
    ∀ (n i k : Nat) (s : PinState), s.sck = true →
      (applyTrace s (xTrace inp w n i k)).sck = true := by
  intro n
  induction n with
  | zero => intro i k s hs; simpa [xTrace, applyTrace] using hs
  | succ n ih =>
    intro i k s hs
    simp only [xTrace, applyTrace_cons, applyEv]
    exact ih (i + 1) (k + 1) _ rfl

theorem apply_tTrace_sck (inp : Nat → Option Bool) (w : Nat) :
    ∀ (n i k : Nat) (s : PinState), s.sck = true →
      (applyTrace s (tTrace inp w n i k)).sck = true := by
  intro n
  induction n with
  | zero => intro i k s hs; simpa [tTrace, applyTrace] using hs
  | succ n ih =>
    intro i k s hs
    simp only [tTrace, applyTrace_cons, applyEv]
    exact ih (i + 1) (k + 1) _ rfl

theorem apply_wWordsTrace_sck :
    ∀ (ws : List Nat) (s : PinState), s.sck = true →
      (applyTrace s (wWordsTrace ws)).sck = true := by
  intro ws
  induction ws with
  | nil => intro s hs; simpa [wWordsTrace, applyTrace] using hs
  | cons w ws ih =>
    intro s hs
    simp only [wWordsTrace, applyTrace_append]
    exact ih _ (apply_wTrace_sck w 8 0 s hs)

theorem apply_xWordsTrace_sck (inp : Nat → Option Bool) :
    ∀ (ws : List Nat) (k : Nat) (s : PinState), s.sck = true →
      (applyTrace s (xWordsTrace inp ws k)).sck = true := by
  intro ws
  induction ws with
  | nil => intro k s hs; simpa [xWordsTrace, applyTrace] using hs
  | cons w ws ih =>
    intro k s hs
    simp only [xWordsTrace, applyTrace_append]
    exact ih (k + 8) _ (apply_xTrace_sck inp w 8 0 k s hs)

theorem apply_tWordsTrace_sck (inp : Nat → Option Bool) :
    ∀ (ws : List Nat) (k : Nat) (s : PinState), s.sck = true →
      (applyTrace s (tWordsTrace inp ws k)).sck = true := by
  intro ws
  induction ws with
  | nil => intro k s hs; simpa [tWordsTrace, applyTrace] using hs
  | cons w ws ih =>
    intro k s hs
    simp only [tWordsTrace, applyTrace_append]
    exact ih (k + 8) _ (apply_tTrace_sck inp w 8 0 k s hs)

/-!
Claim theorems.
-/

/-- Claim C1, counterexample: writing `[0xA5]` drives the data-out
line in the sequence high,low,high,low,low,high,low,high (the actual
MSB-first bits of `0xA5` = `10100101`), which differs from the
sequence high,low,high,low,high,high,low,high asserted by the claim
(that sequence is `10101101` = `0xAD`, contradicting the claim's own
parenthetical). -/
theorem fd_write_a5_counterexample :
    datLevels (fdWrite oFc [0xA5]).trace =
      [true, false, true, false, false, true, false, true] ∧
    datLevels (fdWrite oFc [0xA5]).trace ≠
      [true, false, true, false, true, true, false, true] := by
  constructor <;> decide

/-- Claim C1 as amended: for any output-pin outcomes, writing
`[0xA5]` on the full-duplex engine produces exactly 8 clock pulses —
the clock-drive sequence is 8 adjacent low-then-high pairs — and
drives the data-out line in the per-bit sequence
high,low,high,low,low,high,low,high. -/
theorem fd_write_a5_protocol (oF : Nat → Bool) :
    sckLevels (fdWrite oF [0xA5]).trace =
      [false, true, false, true, false, true, false, true,
        false, true, false, true, false, true, false, true] ∧
    wellClocked (fdWrite oF [0xA5]).trace = true ∧
    datLevels (fdWrite oF [0xA5]).trace =
      [true, false, true, false, false, true, false, true] := by
  have h : (fdWrite oF [0xA5]).trace = wWordsTrace [0xA5] := by
    simp [fdWrite, writeWords_eq]
  rw [h]
  refine ⟨by decide, by decide, by decide⟩

/-- Claim C2, counterexample: half-duplex construction does not drive
the shared data line at all (starting undriven it stays undriven),
and a completed write of `[0x00]` leaves the shared data line driven
low — so the data line is not driven high whenever no write is in
progress. -/
theorem hd_idle_counterexample :
    (hdNew ⟨false, none⟩).dat ≠ some true ∧
    (applyTrace ⟨true, some true⟩ (hdWrite oFc [0x00]).trace).dat =
      some false := by
  constructor <;> decide

/-- Claim C2 as amended: the half-duplex bus actively drives the
shared data line high at the start of every read — the first event of
every read trace is a data-line set-high — and the line is still
driven high when the read completes; construction leaves the data
line untouched (and, per the counterexample, a write leaves it at the
last transmitted bit's level). -/
theorem hd_read_drives_data_high (inp : Nat → Option Bool)
    (oF : Nat → Bool) (ws : List Nat) (s : PinState) :
    (hdRead inp oF ws).trace.head? = some (Ev.dat true) ∧
    (applyTrace s (hdRead inp oF ws).trace).dat = some true ∧
    (hdNew s).dat = s.dat := by
  refine ⟨rfl, ?_, rfl⟩
  have h : (hdRead inp oF ws).trace =
      Ev.dat true :: sampleTrace inp (8 * ws.length) 0 := by
    simp [hdRead, readWords_eq]
  rw [h, applyTrace_cons, apply_sampleTrace_dat]
  rfl

/-- Claim C3: the full-duplex `transfer` aborts (panics, modelled as
`none`, carrying no pin events and no buffer changes because the
assertion precedes the bit loop) exactly when the two buffer lengths
differ, and on every pair of equal-length buffers it returns
success. -/
theorem fd_transfer_length_contract (inp : Nat → Option Bool)
    (oF : Nat → Bool) (rb wb : List Nat) :
    ((fdTransfer inp oF rb wb = none) ↔ (rb.length == wb.length) = false) ∧
    ((fdTransfer inp oF rb wb).elim True (fun o => o.res = Outcome.ok)) := by
  by_cases h : rb.length = wb.length
  · constructor
    · simp [fdTransfer, h]
    · simp [fdTransfer, h]
  · constructor
    · simp [fdTransfer, h, Nat.beq_eq_true_eq]
    · simp [fdTransfer, h]

/-- Claim C3, witness: at `rb = [0x01]`, `wb = []` the transfer
aborts; at `rb = [0x01]`, `wb = [0x02]` it returns success. -/
theorem fd_transfer_length_contract_witness :
    (fdTransfer inpF oFc [0x01] [] = none) ∧
    ((fdTransfer inpF oFc [0x01] [0x02]).elim True
      (fun o => o.res = Outcome.ok)) :=
  ⟨(fd_transfer_length_contract inpF oFc [0x01] []).1.mpr (by decide),
    (fd_transfer_length_contract inpF oFc [0x01] [0x02]).2⟩

/-- Claim C4: the half-duplex `transfer` and `transfer_in_place`
perform no pin operation (empty trace), leave the passed buffers
byte-for-byte unchanged, and return success, for all buffers. -/
theorem hd_transfer_noop (rb wb ws : List Nat) :
    hdTransfer rb wb = ⟨rb, [], Outcome.ok⟩ ∧
    hdTransferInPlace ws = ⟨ws, [], Outcome.ok⟩ :=
  ⟨rfl, rfl⟩

/-- Claim C6: the full-duplex `read` processes each word position
with exactly 8 bits MSB-first — its trace is one clock-low,
clock-high, sample group per bit, in order — and each produced word
is the MSB-first value of its 8 samples (a sampled high sets the low
bit after the left shift); reading 2 bytes while the data-in line
presents the bits of `0x00` then `0xFF` yields `[0x00, 0xFF]`. -/
theorem fd_read_msb_first (inp : Nat → Option Bool) (oF : Nat → Bool)
    (ws : List Nat) :
    (fdRead inp oF ws).words =
      (List.range ws.length).map (fun i => bitsVal inp 8 (8 * i)) ∧
    (fdRead inp oF ws).trace = sampleTrace inp (8 * ws.length) 0 ∧
    (fdRead inpLoHi oFc [0x12, 0x34]).words = [0x00, 0xFF] := by
  refine ⟨?_, ?_, by decide⟩
  · simp [fdRead, readWords_eq]
  · simp [fdRead, readWords_eq]

/-- Claim C9: the full-duplex `read` never drives the data-out
(MOSI) line: after the call the driven data-out state equals the
state before the call, for every buffer, input stream and pin-outcome
stream. -/
theorem fd_read_preserves_mosi (inp : Nat → Option Bool)
    (oF : Nat → Bool) (ws : List Nat) (s : PinState) :
    (applyTrace s (fdRead inp oF ws).trace).dat = s.dat := by
  have h : (fdRead inp oF ws).trace = sampleTrace inp (8 * ws.length) 0 := by
    simp [fdRead, readWords_eq]
  rw [h, apply_sampleTrace_dat]

/-- Claim C7, counterexample: on the same inputs (`[0x00]` against a
copy of itself, all samples low, all drives succeeding) the pin-event
trace of `transfer_in_place` differs from that of `transfer`: the
in-place loop drives the data-out line high once more before each
bit (`self.mosi.set_high()` precedes the `set_state`), so the
bit-level pin protocols are not identical. -/
theorem fd_tip_protocol_counterexample :
    (fdTransfer inpF oFc [0x00] [0x00]).map (fun o => o.trace) ≠
      some (fdTransferInPlace inpF oFc [0x00]).trace := by
  decide

/-- Claim C7 as amended: `transfer_in_place` performs the same
protocol as `transfer` run against a copy of the buffer, except that
it additionally drives the data-out line high immediately before each
per-bit data-out drive (`addGlitch`); the outgoing bits come from
each word's original value, the accumulated byte is written back only
after the word's 8 bits, and the resulting buffer equals the read
buffer `transfer` would produce under the same data-in levels. -/
theorem fd_tip_refines_transfer (inp : Nat → Option Bool)
    (oF : Nat → Bool) (ws : List Nat) :
    (fdTransferInPlace inp oF ws).words =
      (List.range ws.length).map (fun i => bitsVal inp 8 (8 * i)) ∧
    ((fdTransfer inp oF ws ws).elim False (fun o =>
      (fdTransferInPlace inp oF ws).words = o.words ∧
      (fdTransferInPlace inp oF ws).trace = addGlitch o.trace)) := by
  have htip := tipWords_eq inp oF ws 0 0
  have hx := xferWords_eq inp oF ws ws 0 0 rfl
  have hsome : fdTransfer inp oF ws ws =
      some ⟨(xferWords inp oF ws ws 0 0).1,
        (xferWords inp oF ws ws 0 0).2, Outcome.ok⟩ := by
    simp [fdTransfer]
  refine ⟨by simp [fdTransferInPlace, htip], ?_⟩
  rw [hsome]
  simp only [Option.elim]
  constructor
  · simp [fdTransferInPlace, htip, hx]
  · simp [fdTransferInPlace, htip, hx, tWordsTrace_eq_addGlitch]

/-! Clock discipline, packaged per trace shape. -/

theorem sckOk_nil : sckOk [] :=
  ⟨rfl, fun _ hs => hs⟩

theorem sckOk_cons_dat (b : Bool) (t : List Ev) (h : sckOk t) :
    sckOk (Ev.dat b :: t) := by
  obtain ⟨h1, h2⟩ := h
  refine ⟨by simpa [wc_dat] using h1, fun s hs => ?_⟩
  rw [applyTrace_cons]
  exact h2 _ hs

theorem sckOk_sampleTrace (inp : Nat → Option Bool) (n k : Nat) :
    sckOk (sampleTrace inp n k) :=
  ⟨by simpa using wc_sampleTrace inp n k [],
    fun s hs => apply_sampleTrace_sck inp n k s hs⟩

theorem sckOk_wWordsTrace (ws : List Nat) : sckOk (wWordsTrace ws) :=
  ⟨by simpa using wc_wWordsTrace ws [],
    fun s hs => apply_wWordsTrace_sck ws s hs⟩

theorem sckOk_xWordsTrace (inp : Nat → Option Bool) (ws : List Nat)
    (k : Nat) : sckOk (xWordsTrace inp ws k) :=
  ⟨by simpa using wc_xWordsTrace inp ws k [],
    fun s hs => apply_xWordsTrace_sck inp ws k s hs⟩

theorem sckOk_tWordsTrace (inp : Nat → Option Bool) (ws : List Nat)
    (k : Nat) : sckOk (tWordsTrace inp ws k) :=
  ⟨by simpa using wc_tWordsTrace inp ws k [],
    fun s hs => apply_tWordsTrace_sck inp ws k s hs⟩

/-- Claim C5: construction drives the clock high on both engines, and
every operation's trace has well-formed clock pulses (each set-low
immediately followed by a set-high) and leaves the clock driven high
whenever it was high on entry — so from construction onward the
clock is high at every operation boundary. -/
theorem clock_idle_invariant (s0 : PinState) (inp : Nat → Option Bool)
    (oF : Nat → Bool) (ws rb wb : List Nat) :
    (fdNew s0).sck = true ∧
    (hdNew s0).sck = true ∧
    sckOk (fdRead inp oF ws).trace ∧
    sckOk (fdWrite oF ws).trace ∧
    ((fdTransfer inp oF rb wb).elim True (fun o => sckOk o.trace)) ∧
    sckOk (fdTransferInPlace inp oF ws).trace ∧
    sckOk fdFlush.trace ∧
    sckOk (hdRead inp oF ws).trace ∧
    sckOk (hdWrite oF ws).trace ∧
    sckOk (hdTransfer rb wb).trace ∧
    sckOk (hdTransferInPlace ws).trace ∧
    sckOk hdFlush.trace := by
  refine ⟨rfl, rfl, ?_, ?_, ?_, ?_, sckOk_nil, ?_, ?_, sckOk_nil,
    sckOk_nil, sckOk_nil⟩
  · have h : (fdRead inp oF ws).trace = sampleTrace inp (8 * ws.length) 0 := by
      simp [fdRead, readWords_eq]
    rw [h]
    exact sckOk_sampleTrace inp (8 * ws.length) 0
  · have h : (fdWrite oF ws).trace = wWordsTrace ws := by
      simp [fdWrite, writeWords_eq]
    rw [h]
    exact sckOk_wWordsTrace ws
  · by_cases h : rb.length = wb.length
    · have hsome : fdTransfer inp oF rb wb =
          some ⟨(xferWords inp oF rb wb 0 0).1,
            (xferWords inp oF rb wb 0 0).2, Outcome.ok⟩ := by
        simp [fdTransfer, h]
      rw [hsome]
      simp only [Option.elim]
      have htr : (xferWords inp oF rb wb 0 0).2 = xWordsTrace inp wb 0 := by
        simp [xferWords_eq inp oF rb wb 0 0 h]
      show sckOk (xferWords inp oF rb wb 0 0).2
      rw [htr]
      exact sckOk_xWordsTrace inp wb 0
    · have hnone : fdTransfer inp oF rb wb = none := by
        simp [fdTransfer, h]
      rw [hnone]
      trivial
  · have h : (fdTransferInPlace inp oF ws).trace = tWordsTrace inp ws 0 := by
      simp [fdTransferInPlace, tipWords_eq]
    rw [h]
    exact sckOk_tWordsTrace inp ws 0
  · have h : (hdRead inp oF ws).trace =
        Ev.dat true :: sampleTrace inp (8 * ws.length) 0 := by
      simp [hdRead, readWords_eq]
    rw [h]
    exact sckOk_cons_dat true _ (sckOk_sampleTrace inp (8 * ws.length) 0)
  · have h : (hdWrite oF ws).trace = wWordsTrace ws := by
      simp [hdWrite, writeWords_eq]
    rw [h]
    exact sckOk_wWordsTrace ws

/-- Claim C5, witness: at concrete inputs, the write of `[0xA5]` is
well-clocked and a half-duplex read starting with the clock high
leaves it high. -/
theorem clock_idle_invariant_witness :
    wellClocked (fdWrite oFc [0xA5]).trace = true ∧
    (applyTrace ⟨true, none⟩ (hdRead inpF oFc [0xA5]).trace).sck = true := by
  have h := clock_idle_invariant ⟨false, none⟩ inpF oFc [0xA5] [0x01] [0x02]
  exact ⟨h.2.2.2.1.1, h.2.2.2.2.2.2.2.1.2 ⟨true, none⟩ rfl⟩

/-! Input-failure normalization. -/

theorem bitInc_norm (inp : Nat → Option Bool) (n : Nat) :
    bitInc (normIn inp n) = bitInc (inp n) := by
  unfold normIn bitInc
  cases h : inp n with
  | none => simp
  | some b => cases b <;> simp

theorem bitsVal_norm (inp : Nat → Option Bool) :
    ∀ n k, bitsVal (normIn inp) n k = bitsVal inp n k := by
  intro n
  induction n with
  | zero => intro k; rfl
  | succ n ih => intro k; simp only [bitsVal, bitInc_norm, ih]

/-- Claim C8: every bus operation of both engines returns success
for every input; each operation's entire output is unchanged when the
output-pin outcome stream changes (the `.ok()`-discarded results
never influence behaviour); a failed input-pin read produces the same
words as reading a low level; and the only exception to
always-success is the full-duplex `transfer`'s equal-length abort. -/
theorem ops_fault_tolerance (inp : Nat → Option Bool) (oF oF2 : Nat → Bool)
    (ws rb wb : List Nat) :
    (fdRead inp oF ws).res = Outcome.ok ∧
    (fdWrite oF ws).res = Outcome.ok ∧
    (fdTransferInPlace inp oF ws).res = Outcome.ok ∧
    fdFlush.res = Outcome.ok ∧
    (hdRead inp oF ws).res = Outcome.ok ∧
    (hdWrite oF ws).res = Outcome.ok ∧
    (hdTransfer rb wb).res = Outcome.ok ∧
    (hdTransferInPlace ws).res = Outcome.ok ∧
    hdFlush.res = Outcome.ok ∧
    ((fdTransfer inp oF rb wb).elim ((rb.length == wb.length) = false)
      (fun o => o.res = Outcome.ok)) ∧
    fdRead inp oF ws = fdRead inp oF2 ws ∧
    fdWrite oF ws = fdWrite oF2 ws ∧
    fdTransfer inp oF rb wb = fdTransfer inp oF2 rb wb ∧
    fdTransferInPlace inp oF ws = fdTransferInPlace inp oF2 ws ∧
    hdRead inp oF ws = hdRead inp oF2 ws ∧
    hdWrite oF ws = hdWrite oF2 ws ∧
    (fdRead (normIn inp) oF ws).words = (fdRead inp oF ws).words ∧
    (fdTransferInPlace (normIn inp) oF ws).words =
      (fdTransferInPlace inp oF ws).words ∧
    (hdRead (normIn inp) oF ws).words = (hdRead inp oF ws).words ∧
    ((fdTransfer inp oF rb wb).elim True (fun o =>
      (fdTransfer (normIn inp) oF rb wb).elim False
        (fun o2 => o2.words = o.words))) := by
  refine ⟨rfl, rfl, rfl, rfl, rfl, rfl, rfl, rfl, rfl, ?_, ?_, ?_, ?_,
    ?_, ?_, ?_, ?_, ?_, ?_, ?_⟩
  · by_cases h : rb.length = wb.length
    · simp [fdTransfer, h]
    · simp [fdTransfer, h, Nat.beq_eq_true_eq]
  · simp [fdRead, readWords_eq]
  · simp [fdWrite, writeWords_eq]
  · by_cases h : rb.length = wb.length
    · simp [fdTransfer, h, xferWords_eq inp oF rb wb 0 0 h,
        xferWords_eq inp oF2 rb wb 0 0 h]
    · simp [fdTransfer, h]
  · simp [fdTransferInPlace, tipWords_eq]
  · simp [hdRead, readWords_eq]
  · simp [hdWrite, writeWords_eq]
  · simp [fdRead, readWords_eq, bitsVal_norm]
  · simp [fdTransferInPlace, tipWords_eq, bitsVal_norm]
  · simp [hdRead, readWords_eq, bitsVal_norm]
  · by_cases h : rb.length = wb.length
    · have h1 : fdTransfer inp oF rb wb =
          some ⟨(xferWords inp oF rb wb 0 0).1,
            (xferWords inp oF rb wb 0 0).2, Outcome.ok⟩ := by
        simp [fdTransfer, h]
      have h2 : fdTransfer (normIn inp) oF rb wb =
          some ⟨(xferWords (normIn inp) oF rb wb 0 0).1,
            (xferWords (normIn inp) oF rb wb 0 0).2, Outcome.ok⟩ := by
        simp [fdTransfer, h]
      rw [h1, h2]
      simp only [Option.elim]
      show (xferWords (normIn inp) oF rb wb 0 0).1 =
        (xferWords inp oF rb wb 0 0).1
      simp [xferWords_eq inp oF rb wb 0 0 h,
        xferWords_eq (normIn inp) oF rb wb 0 0 h, bitsVal_norm]
    · have h1 : fdTransfer inp oF rb wb = none := by
        simp [fdTransfer, h]
      rw [h1]
      trivial

/-- Claim C10: the words produced by the full-duplex `read` and by
`transfer` into the read buffer are fully determined by the sampled
data-in levels: replacing the prior contents of the (read) buffer by
any other buffer of the same length leaves the produced words
unchanged, so callers need not zero the buffer first. -/
theorem read_words_indep_of_buffer (inp : Nat → Option Bool)
    (oF : Nat → Bool) (ws ws2 rb rb2 wb : List Nat)
    (h1 : ws.length = ws2.length) (h2 : rb.length = rb2.length) :
    (fdRead inp oF ws).words = (fdRead inp oF ws2).words ∧
    ((fdTransfer inp oF rb wb).elim True (fun o =>
      (fdTransfer inp oF rb2 wb).elim True
        (fun o2 => o.words = o2.words))) := by
  constructor
  · simp [fdRead, readWords_eq, h1]
  · by_cases h : rb.length = wb.length
    · have h3 : rb2.length = wb.length := by omega
      have ha : fdTransfer inp oF rb wb =
          some ⟨(xferWords inp oF rb wb 0 0).1,
            (xferWords inp oF rb wb 0 0).2, Outcome.ok⟩ := by
        simp [fdTransfer, h]
      have hb : fdTransfer inp oF rb2 wb =
          some ⟨(xferWords inp oF rb2 wb 0 0).1,
            (xferWords inp oF rb2 wb 0 0).2, Outcome.ok⟩ := by
        simp [fdTransfer, h3]
      rw [ha, hb]
      simp only [Option.elim]
      show (xferWords inp oF rb wb 0 0).1 = (xferWords inp oF rb2 wb 0 0).1
      simp [xferWords_eq inp oF rb wb 0 0 h,
        xferWords_eq inp oF rb2 wb 0 0 h3, h2]
    · have ha : fdTransfer inp oF rb wb = none := by
        simp [fdTransfer, h]
      rw [ha]
      trivial

/-- Claim C10, witness: two read buffers `[0x01, 0x02]` and
`[0xFE, 0xFF]` of equal length produce the same words under the same
input stream. -/
theorem read_words_indep_of_buffer_witness :
    ([0x01, 0x02] : List Nat).length = ([0xFE, 0xFF] : List Nat).length ∧
    (fdRead inpLoHi oFc [0x01, 0x02]).words =
      (fdRead inpLoHi oFc [0xFE, 0xFF]).words :=
  ⟨by decide,
    (read_words_indep_of_buffer inpLoHi oFc [0x01, 0x02] [0xFE, 0xFF]
      [0x03] [0x04] [0x05] (by decide) (by decide)).1⟩
